import Mathlib

/-!
Verification of the malcontent match post-processing and report-assembly
pipeline, shallowly embedded from the Go sources:

* `pkg/report/strings.go` — the line index (`computeLineOffsets`,
  `getLineInfo`), the string interner, and the match aggregator
  (`matchProcessor.process`, `updateLineInfo`, `containsUnprintable`).
* `pkg/render/json.go` — the JSON serialization adapter (`JSON.Full`)
  and the line-splitting transform (`splitBehaviorsByLineNumbers`).

Bytes are modelled as `Nat` (values 0..255), file content as `List Nat`,
Go `int` values that can be negative as `Int`, and match lengths
(which originate from an unsigned engine length) as `Nat`.
-/

namespace Malcontent

/-! ## Line index (pkg/report/strings.go) -/

/-- Offsets following each newline byte, starting the scan at index `i`.
Mirrors the loop body of `computeLineOffsets`: for every byte `b` at
index `i` with `b == '\n'` (byte 10), record `i + 1`. -/
def computeLineOffsetsAux : List Nat → Nat → List Nat
  | [], _ => []
  | b :: rest, i =>
      if b = 10 then (i + 1) :: computeLineOffsetsAux rest (i + 1)
      else computeLineOffsetsAux rest (i + 1)

/-- `computeLineOffsets` from strings.go: `offsets := []int{0}` followed by
`i+1` for every newline byte at index `i`. -/
def computeLineOffsets (content : List Nat) : List Nat :=
  0 :: computeLineOffsetsAux content 0

/-- `matchProcessor.getLineInfo` from strings.go.  A negative position or a
position at or past the end of the content returns the `(1, 0)` fallback.
Otherwise the Go code runs `sort.Search(len(offsets), offsets[i] > pos) - 1`,
which on the sorted offset list returns the number of offsets `≤ pos`;
we embed that boundary as `countP`.  The Go clamp `if idx < 0 { idx = 0 }`
is subsumed by truncated `Nat` subtraction (and is in fact dead, since
`offsets[0] = 0 ≤ pos` in this branch). -/
def getLineInfo (fc : List Nat) (pos : Int) : Nat × Nat :=
  if pos < 0 ∨ (fc.length : Int) ≤ pos then (1, 0)
  else
    let offsets := computeLineOffsets fc
    let p := pos.toNat
    let idx := offsets.countP (fun o => decide (o ≤ p)) - 1
    (idx + 1, p - offsets.getD idx 0)

/-- `containsUnprintable` from strings.go: true iff some byte is outside
the printable ASCII range `[32, 126]`. -/
def containsUnprintable (b : List Nat) : Bool :=
  b.any (fun c => c < 32 || 126 < c)

/-- Decoding a printable byte span to a string (`string(buffer)` /
`string(matchBytes)` in the Go).  The interner (`StringPool.Intern`) and the
small-buffer copy affect sharing only, never the string value, so both
Go branches produce this value. -/
def bytesToString (b : List Nat) : String :=
  String.mk (b.map Char.ofNat)

/-! ## Match aggregator (pkg/report/strings.go) -/

/-- One raw engine match: `offset` is `int(match.Offset())` (an engine byte
offset converted to a signed int), `length` is `int(match.Length())`, which
originates from an unsigned count. -/
structure Match where
  offset : Int
  length : Nat
  deriving Repr, DecidableEq

/-- `slices.Compact`: collapse consecutive runs of equal elements to one. -/
def compactAdjacent : List String → List String
  | [] => []
  | [x] => [x]
  | x :: y :: rest =>
      if x = y then compactAdjacent (y :: rest)
      else x :: compactAdjacent (y :: rest)

/-- Strict lexicographic order on (line, column) pairs, exactly the
comparison used by `updateLineInfo`. -/
def lexLt (a b : Nat × Nat) : Bool :=
  a.1 < b.1 || (a.1 = b.1 && a.2 < b.2)

/-- Start widening in `updateLineInfo`: the candidate replaces the current
start iff its line is smaller, or equal-line with a smaller column. -/
def minLex (cur cand : Nat × Nat) : Nat × Nat :=
  if lexLt cand cur then cand else cur

/-- End widening in `updateLineInfo`: the candidate replaces the current
end iff its line is larger, or equal-line with a larger column. -/
def maxLex (cur cand : Nat × Nat) : Nat × Nat :=
  if lexLt cur cand then cand else cur

/-- The aggregated-span state threaded through `process`.  The Go keeps four
ints plus a `firstMatch` flag; before the first processed match the ints are
never read, so the pair (start, end) guarded by the flag is an `Option`:
`none` is `firstMatch = true`. -/
def mergeCand (st : Option ((Nat × Nat) × (Nat × Nat)))
    (cand : (Nat × Nat) × (Nat × Nat)) : Option ((Nat × Nat) × (Nat × Nat)) :=
  match st with
  | none => some cand
  | some (cs, ce) => some (minLex cs cand.1, maxLex ce cand.2)

/-- `matchProcessor.updateLineInfo`: the start candidate is
`getLineInfo(offset)`, the end candidate `getLineInfo(offset+length-1)`;
the first match initialises both bounds, later matches widen them. -/
def updateLineInfo (fc : List Nat) (offset : Int) (length : Nat)
    (st : Option ((Nat × Nat) × (Nat × Nat))) : Option ((Nat × Nat) × (Nat × Nat)) :=
  mergeCand st (getLineInfo fc offset, getLineInfo fc (offset + length - 1))

/-- Mutable state of the `process` loop: the pooled `result` string slice
and the aggregated span. -/
structure ProcState where
  result : List String
  pos : Option ((Nat × Nat) × (Nat × Nat))
  deriving Repr, DecidableEq

/-- One iteration of the `for _, match := range mp.matches` loop in
`process`.  A match whose span falls outside `[0, len(fc)]` is skipped.
A printable span appends its interned string; an unprintable span appends
the pattern identifier list compacted by `slices.Compact`.  Both branches
then widen the aggregated span via `updateLineInfo`. -/
def processStep (fc : List Nat) (patternIds : List String)
    (st : ProcState) (m : Match) : ProcState :=
  let l := m.length
  let o := m.offset
  if o < 0 ∨ (fc.length : Int) < o + l then st
  else
    let matchBytes := (fc.drop o.toNat).take l
    if containsUnprintable matchBytes then
      { result := st.result ++ compactAdjacent patternIds
        pos := updateLineInfo fc o l st.pos }
    else
      { result := st.result ++ [bytesToString matchBytes]
        pos := updateLineInfo fc o l st.pos }

/-- The aggregate returned by `matchProcessor.process`. -/
structure MatchResult where
  Strings : List String
  StartingLine : Nat
  EndingLine : Nat
  StartingOffset : Nat
  EndingOffset : Nat
  deriving Repr, DecidableEq

/-- `matchProcessor.process`: empty match list returns the zero result;
otherwise fold the loop body over the matches in engine order and read the
four span fields out of the final state (all zero when every match was
skipped, since the Go ints are never written then). -/
def process (fc : List Nat) (ms : List Match)
    (patternIds : List String) : MatchResult :=
  if ms.isEmpty then ⟨[], 0, 0, 0, 0⟩
  else
    let final := ms.foldl (processStep fc patternIds) ⟨[], none⟩
    match final.pos with
    | none => ⟨final.result, 0, 0, 0, 0⟩
    | some ((sl, so), (el, eo)) => ⟨final.result, sl, el, so, eo⟩

/-! ## Behavior / FileReport model (pkg/malcontent)

The struct definitions live in `pkg/malcontent/malcontent.go`; the field set
below is the one exercised by the sources at hand: every field read or
written by `splitBehaviorsByLineNumbers` and `JSON.Full` in
`pkg/render/json.go`, plus the location fields (`StartingLine`, `EndingLine`,
`StartingOffset`, `EndingOffset`) constructed by the render and action tests.
Field types follow the uses: `int` fields are `Int`, `[]int` are `List Int`,
string metadata is `String`, flags are `Bool`.  Opaque pass-through fields
(`Meta`, `Syscalls`, `Pledge`, `Capabilities`, `FilteredBehaviors`,
`Overrides`) are modelled with simple carrier types, which is sound for the
claims here because the Go code only ever copies them verbatim. -/

/-- `malcontent.Behavior`. -/
structure Behavior where
  ID : String
  RuleName : String
  Description : String
  MatchStrings : List String
  LineNumbers : List Int
  CharOffsets : List Int
  RiskScore : Int
  RiskLevel : String
  RuleURL : String
  ReferenceURL : String
  RuleAuthor : String
  RuleAuthorURL : String
  RuleLicense : String
  RuleLicenseURL : String
  DiffAdded : Bool
  DiffRemoved : Bool
  Override : List String
  StartingLine : Int
  EndingLine : Int
  StartingOffset : Int
  EndingOffset : Int
  deriving Repr, DecidableEq, Inhabited

/-- `malcontent.FileReport`.  `Behaviors` is the detection-ordered list; the
remaining fields are the ones copied field-by-field by
`splitBehaviorsByLineNumbers`. -/
structure FileReport where
  Path : String
  SHA256 : String
  Size : Int
  Skipped : String
  Meta : List (String × String)
  Syscalls : List String
  Pledge : List String
  Capabilities : List String
  FilteredBehaviors : Int
  PreviousPath : String
  PreviousRelPath : String
  PreviousRelPathScore : Int
  PreviousRiskScore : Int
  PreviousRiskLevel : String
  RiskScore : Int
  RiskLevel : String
  IsMalcontent : Bool
  Overrides : List Behavior
  ArchiveRoot : String
  FullPath : String
  Behaviors : List Behavior
  deriving Repr, DecidableEq, Inhabited

/-! ## Line-splitting transform (pkg/render/json.go) -/

/-- The per-behavior body of the loop in `splitBehaviorsByLineNumbers`.
A behavior with 0 or 1 line numbers is copied as-is; otherwise one behavior
is emitted per line number, in order, carrying that line number, the
`CharOffsets` entry of the same index (0 when absent), and exactly the
fields listed in the Go composite literal.  Fields absent from that literal
(`StartingLine`, `EndingLine`, `StartingOffset`, `EndingOffset`) take the Go
zero value. -/
def splitBehavior (b : Behavior) : List Behavior :=
  if b.LineNumbers.length ≤ 1 then [b]
  else
    b.LineNumbers.enum.map (fun p =>
      let i := p.1
      let lineNum := p.2
      let charOffset := b.CharOffsets.getD i 0
      { Description := b.Description
        MatchStrings := b.MatchStrings
        LineNumbers := [lineNum]
        CharOffsets := [charOffset]
        RiskScore := b.RiskScore
        RiskLevel := b.RiskLevel
        RuleURL := b.RuleURL
        ReferenceURL := b.ReferenceURL
        RuleAuthor := b.RuleAuthor
        RuleAuthorURL := b.RuleAuthorURL
        RuleLicense := b.RuleLicense
        RuleLicenseURL := b.RuleLicenseURL
        DiffAdded := b.DiffAdded
        DiffRemoved := b.DiffRemoved
        ID := b.ID
        RuleName := b.RuleName
        Override := b.Override
        StartingLine := 0
        EndingLine := 0
        StartingOffset := 0
        EndingOffset := 0 })

/-- `splitBehaviorsByLineNumbers` from json.go: a new `FileReport` whose
non-`Behaviors` fields — including `ArchiveRoot` and `FullPath` — are copied
verbatim from the input, and whose `Behaviors` list is the concatenation of
the per-behavior expansions. -/
def splitBehaviorsByLineNumbers (fr : FileReport) : FileReport :=
  { fr with Behaviors := fr.Behaviors.flatMap splitBehavior }

/-! ## Serialization adapter (pkg/render/json.go)

`JSON.Full` iterates the `Report.Files` store (a `sync.Map`); we model the
store as an association list in the (unspecified) iteration order.  For each
stored `*FileReport` with empty `Skipped`, the Go code clears `ArchiveRoot`
and `FullPath` **on the stored value in place** (it writes through the shared
pointer), then — when `c.LineInfo` is set — replaces its local variable with
the `splitBehaviorsByLineNumbers` copy, and files the result in the output
map.  The embedding returns both the output entries and the post-render
store, making the in-place writes visible.  The `ctx.Err()` checks and the
stats/diff envelope are outside the claims and are elided (context never
cancelled). -/

/-- The two in-place writes `r.ArchiveRoot = ""; r.FullPath = ""`. -/
def clearDiffFields (r : FileReport) : FileReport :=
  { r with ArchiveRoot := "", FullPath := "" }

/-- Output entries plus post-render store of `JSON.Full`. -/
structure FullResult where
  output : List (String × FileReport)
  store : List (String × FileReport)
  deriving Repr, DecidableEq

/-- The body of the `rep.Files.Range` callback in `JSON.Full` for one store
entry: a skipped report passes through untouched and produces no output
entry; any other report is cleared in place, optionally split, and filed. -/
def JSONFullStep (lineInfo : Bool) (acc : FullResult)
    (pr : String × FileReport) : FullResult :=
  let path := pr.1
  let r := pr.2
  if r.Skipped = "" then
    let r2 := clearDiffFields r
    let out := if lineInfo then splitBehaviorsByLineNumbers r2 else r2
    { output := acc.output ++ [(path, out)], store := acc.store ++ [(path, r2)] }
  else
    { output := acc.output, store := acc.store ++ [(path, r)] }

/-- `JSON.Full`: fold the `Range` callback over the store entries. -/
def JSONFull (lineInfo : Bool) (files : List (String × FileReport)) : FullResult :=
  files.foldl (JSONFullStep lineInfo) ⟨[], []⟩

/-- What `JSON.Full` files into the output map for one non-skipped report:
the in-place-cleared report, split when line info is requested. -/
def fullTransform (lineInfo : Bool) (r : FileReport) : FileReport :=
  if lineInfo then splitBehaviorsByLineNumbers (clearDiffFields r)
  else clearDiffFields r

/-! ## Derived views of the `process` loop (for the aggregation claims) -/

/-- The bound check of `process` as a predicate: a match is accepted iff
its span lies inside `[0, len(fc)]` (the negation of the `continue`
condition `o < 0 || o+l > len(mp.fc)`). -/
def acceptMatch (fc : List Nat) (m : Match) : Prop :=
  ¬ (m.offset < 0 ∨ (fc.length : Int) < m.offset + m.length)

instance (fc : List Nat) (m : Match) : Decidable (acceptMatch fc m) := by
  unfold acceptMatch
  infer_instance

/-- Start candidate of a match inside `updateLineInfo`: `getLineInfo(offset)`. -/
def startCand (fc : List Nat) (m : Match) : Nat × Nat :=
  getLineInfo fc m.offset

/-- End candidate of a match inside `updateLineInfo`:
`getLineInfo(offset + length - 1)`. -/
def endCand (fc : List Nat) (m : Match) : Nat × Nat :=
  getLineInfo fc (m.offset + m.length - 1)

/-- The aggregated-span component of one `process` loop iteration:
skipped matches leave the span alone, accepted ones widen it. -/
def posStep (fc : List Nat) (st : Option ((Nat × Nat) × (Nat × Nat)))
    (m : Match) : Option ((Nat × Nat) × (Nat × Nat)) :=
  if m.offset < 0 ∨ (fc.length : Int) < m.offset + m.length then st
  else mergeCand st (startCand fc m, endCand fc m)

/-! ## Sample values (used as concrete witnesses and counterexamples) -/

/-- A file report carrying non-empty internal-only fields, as produced for
an archive member (`ArchiveRoot`/`FullPath` set by the scan phase). -/
def frArchive : FileReport :=
  { Path := "test.sh"
    SHA256 := "abc123"
    Size := 1024
    Skipped := ""
    Meta := []
    Syscalls := []
    Pledge := []
    Capabilities := []
    FilteredBehaviors := 0
    PreviousPath := ""
    PreviousRelPath := ""
    PreviousRelPathScore := 0
    PreviousRiskScore := 0
    PreviousRiskLevel := ""
    RiskScore := 3
    RiskLevel := "HIGH"
    IsMalcontent := false
    Overrides := []
    ArchiveRoot := "/tmp/extract"
    FullPath := "/tmp/extract/test.sh"
    Behaviors := [] }

/-- A multi-line behavior with non-zero aggregated span fields. -/
def bMulti : Behavior :=
  { ID := "net/http"
    RuleName := "http_rule"
    Description := "HTTP connection"
    MatchStrings := ["http"]
    LineNumbers := [10, 25, 47]
    CharOffsets := [3, 7]
    RiskScore := 2
    RiskLevel := "MEDIUM"
    RuleURL := "u"
    ReferenceURL := "ref"
    RuleAuthor := "a"
    RuleAuthorURL := "au"
    RuleLicense := "L"
    RuleLicenseURL := "lu"
    DiffAdded := false
    DiffRemoved := true
    Override := ["o"]
    StartingLine := 10
    EndingLine := 47
    StartingOffset := 3
    EndingOffset := 9 }

/-- A single-line behavior. -/
def bSingle : Behavior :=
  { bMulti with
    ID := "net/socket"
    LineNumbers := [20]
    CharOffsets := [5]
    StartingLine := 20
    EndingLine := 20
    StartingOffset := 5
    EndingOffset := 8 }

/-- A skipped file report. -/
def frSkipped : FileReport :=
  { frArchive with Path := "skip.sh", Skipped := "policy exclusion" }

end Malcontent

namespace Malcontent

-- Concrete checks against the Go test vectors (strings_test.go):
-- "hello\nworld" is [104,101,108,108,111,10,119,111,114,108,100].
example :
    getLineInfo [104, 101, 108, 108, 111, 10, 119, 111, 114, 108, 100] 6 = (2, 0) := by
  decide

example :
    getLineInfo [104, 101, 108, 108, 111, 10, 119, 111, 114, 108, 100] 8 = (2, 2) := by
  decide

example :
    getLineInfo [104, 101, 108, 108, 111, 10, 119, 111, 114, 108, 100] 5 = (1, 5) := by
  decide

example : getLineInfo [104, 101, 108, 108, 111] 10 = (1, 0) := by decide

example : getLineInfo [104, 101, 108, 108, 111] (-1) = (1, 0) := by decide

end Malcontent

namespace Malcontent

/-! ## Helper lemmas -/

/-- Every behavior emitted by `splitBehavior` has at most one line number. -/
theorem splitBehavior_lineNumbers_le_one (b : Behavior) :
    ∀ b' ∈ splitBehavior b, b'.LineNumbers.length ≤ 1 := by
  intro b' hb'
  unfold splitBehavior at hb'
  by_cases h : b.LineNumbers.length ≤ 1
  · simp only [if_pos h, List.mem_singleton] at hb'
    exact hb' ▸ h
  · simp only [if_neg h, List.mem_map] at hb'
    obtain ⟨p, _, hp⟩ := hb'
    subst hp
    simp

/-- A list in which every behavior has at most one line number is fixed by
the per-behavior expansion. -/
theorem flatMap_splitBehavior_of_le_one :
    ∀ l : List Behavior, (∀ b ∈ l, b.LineNumbers.length ≤ 1) →
      l.flatMap splitBehavior = l := by
  intro l
  induction l with
  | nil => intro _; rfl
  | cons b rest ih =>
      intro h
      have hb : b.LineNumbers.length ≤ 1 := h b (List.mem_cons_self b rest)
      have hrest := ih fun x hx => h x (List.mem_cons_of_mem b hx)
      simp only [List.flatMap_cons, hrest, splitBehavior, if_pos hb,
        List.singleton_append]

end Malcontent

namespace Malcontent

/-- Closed form of the `JSON.Full` fold over the store: the output collects
the non-skipped reports transformed by `fullTransform`, and the post-render
store replaces every non-skipped report by its in-place-cleared version. -/
theorem JSONFull_foldl (li : Bool) (files : List (String × FileReport)) :
    ∀ acc : FullResult,
      files.foldl (JSONFullStep li) acc =
        ⟨acc.output ++ files.filterMap (fun pr =>
            if pr.2.Skipped = "" then some (pr.1, fullTransform li pr.2) else none),
          acc.store ++ files.map (fun pr =>
            (pr.1, if pr.2.Skipped = "" then clearDiffFields pr.2 else pr.2))⟩ := by
  induction files with
  | nil => intro acc; simp
  | cons pr rest ih =>
      intro acc
      by_cases h : pr.2.Skipped = ""
      · simp [JSONFullStep, h, ih, fullTransform, List.append_assoc]
      · simp [JSONFullStep, h, ih, List.append_assoc]

/-- Output entries of `JSON.Full`. -/
theorem JSONFull_output (li : Bool) (files : List (String × FileReport)) :
    (JSONFull li files).output = files.filterMap (fun pr =>
      if pr.2.Skipped = "" then some (pr.1, fullTransform li pr.2) else none) := by
  rw [JSONFull, JSONFull_foldl]
  simp

/-- Store contents after `JSON.Full` returns. -/
theorem JSONFull_store (li : Bool) (files : List (String × FileReport)) :
    (JSONFull li files).store = files.map (fun pr =>
      (pr.1, if pr.2.Skipped = "" then clearDiffFields pr.2 else pr.2)) := by
  rw [JSONFull, JSONFull_foldl]
  simp

/-- In an association list with no duplicate keys, a key determines its
value. -/
theorem eq_of_mem_of_nodup_keys {α β : Type} :
    ∀ {l : List (α × β)}, (l.map Prod.fst).Nodup →
      ∀ {p : α} {b b' : β}, (p, b) ∈ l → (p, b') ∈ l → b = b' := by
  intro l
  induction l with
  | nil => intro _ p b b' h; cases h
  | cons x rest ih =>
      intro hnd p b b' hb hb'
      rw [List.map_cons, List.nodup_cons] at hnd
      rcases List.mem_cons.mp hb with h1 | h1
      · rcases List.mem_cons.mp hb' with h2 | h2
        · rw [← h1, Prod.mk.injEq] at h2
          exact h2.2.symm
        · exact absurd (by rw [← h1]; show p ∈ List.map Prod.fst rest; exact List.mem_map_of_mem Prod.fst h2) hnd.1
      · rcases List.mem_cons.mp hb' with h2 | h2
        · exact absurd (by rw [← h2]; show p ∈ List.map Prod.fst rest; exact List.mem_map_of_mem Prod.fst h1) hnd.1
        · exact ih hnd.2 h1 h2

end Malcontent

namespace Malcontent

/-- C1: for every behavior whose `LineNumbers` has `N > 1` entries, `Split`
emits exactly `N` behaviors in its place (the split report's behavior list is
the in-order concatenation of the per-behavior expansions); the `i`-th
emitted record has `LineNumbers = [LineNumbers[i]]` and
`CharOffsets = [CharOffsets[i]]` (0 when `CharOffsets` has fewer entries),
and preserves `ID`, `RiskScore`, `RiskLevel` and `Description`; behaviors
with 0 or 1 line numbers are copied unchanged. -/
theorem C1_split_per_line_number (b : Behavior) :
    (b.LineNumbers.length ≤ 1 → splitBehavior b = [b]) ∧
    (1 < b.LineNumbers.length →
      (splitBehavior b).length = b.LineNumbers.length ∧
      ∀ i, i < b.LineNumbers.length →
        ((splitBehavior b).getD i default).LineNumbers = [b.LineNumbers.getD i 0] ∧
        ((splitBehavior b).getD i default).CharOffsets = [b.CharOffsets.getD i 0] ∧
        ((splitBehavior b).getD i default).ID = b.ID ∧
        ((splitBehavior b).getD i default).RiskScore = b.RiskScore ∧
        ((splitBehavior b).getD i default).RiskLevel = b.RiskLevel ∧
        ((splitBehavior b).getD i default).Description = b.Description) ∧
    ∀ fr : FileReport,
      (splitBehaviorsByLineNumbers fr).Behaviors = fr.Behaviors.flatMap splitBehavior := by
  refine ⟨fun h => by simp [splitBehavior, h], fun h => ?_, fun fr => rfl⟩
  have hnot : ¬ b.LineNumbers.length ≤ 1 := by omega
  refine ⟨by simp [splitBehavior, hnot], ?_⟩
  intro i hi
  have hElem : b.LineNumbers[i]? = some b.LineNumbers[i] := List.getElem?_eq_getElem hi
  have hgetD : b.LineNumbers.getD i 0 = b.LineNumbers[i] := by
    rw [List.getD_eq_getElem?_getD, hElem, Option.getD_some]
  simp only [splitBehavior, if_neg hnot, List.getD_eq_getElem?_getD,
    List.getElem?_map, List.getElem?_enum, hElem, Option.map_some, Option.getD_some, hgetD]
  exact ⟨rfl, rfl, rfl, rfl, rfl, rfl⟩

/-- C1 witness: concrete instances of both hypotheses. -/
theorem C1_split_per_line_number_witness :
    splitBehavior bSingle = [bSingle] ∧
    (splitBehavior bMulti).length = bMulti.LineNumbers.length ∧
    ((splitBehavior bMulti).getD 1 default).LineNumbers = [bMulti.LineNumbers.getD 1 0] ∧
    ((splitBehavior bMulti).getD 2 default).CharOffsets = [bMulti.CharOffsets.getD 2 0] := by
  refine ⟨(C1_split_per_line_number bSingle).1 (by decide),
    ((C1_split_per_line_number bMulti).2.1 (by decide)).1,
    (((C1_split_per_line_number bMulti).2.1 (by decide)).2 1 (by decide)).1,
    (((C1_split_per_line_number bMulti).2.1 (by decide)).2 2 (by decide)).2.1⟩

/-- C8: the line-splitting transform is idempotent — in an already-split
report every behavior has at most one line number, so a second `Split` is a
no-op copy. -/
theorem C8_split_idempotent (fr : FileReport) :
    splitBehaviorsByLineNumbers (splitBehaviorsByLineNumbers fr) =
      splitBehaviorsByLineNumbers fr := by
  have h : (fr.Behaviors.flatMap splitBehavior).flatMap splitBehavior
      = fr.Behaviors.flatMap splitBehavior := by
    apply flatMap_splitBehavior_of_le_one
    intro b hb
    rw [List.mem_flatMap] at hb
    obtain ⟨a, _, hba⟩ := hb
    exact splitBehavior_lineNumbers_le_one a b hba
  simp [splitBehaviorsByLineNumbers, h]

end Malcontent

namespace Malcontent

/-- C6 counterexample: the Go composite literal in
`splitBehaviorsByLineNumbers` does not copy the aggregated span fields, so a
split behavior's `StartingLine` is the zero value, not the source's 10;
likewise the other three span fields. -/
theorem C6_counterexample :
    1 < bMulti.LineNumbers.length ∧
    (splitBehavior bMulti).getD 0 default ∈ splitBehavior bMulti ∧
    ((splitBehavior bMulti).getD 0 default).StartingLine ≠ bMulti.StartingLine ∧
    ((splitBehavior bMulti).getD 0 default).EndingLine ≠ bMulti.EndingLine ∧
    ((splitBehavior bMulti).getD 0 default).StartingOffset ≠ bMulti.StartingOffset ∧
    ((splitBehavior bMulti).getD 0 default).EndingOffset ≠ bMulti.EndingOffset := by
  decide

/-- C6 (amended): every behavior emitted for a multi-line behavior carries
the source's descriptive, provenance, risk, diff and identifier fields and
its `MatchStrings` verbatim, but the four aggregated span fields
(`StartingLine`, `EndingLine`, `StartingOffset`, `EndingOffset`) are absent
from the Go composite literal and are therefore reset to 0. -/
theorem C6_split_field_preservation (b : Behavior) (h : 1 < b.LineNumbers.length) :
    ∀ b' ∈ splitBehavior b,
      b'.Description = b.Description ∧
      b'.MatchStrings = b.MatchStrings ∧
      b'.RiskScore = b.RiskScore ∧
      b'.RiskLevel = b.RiskLevel ∧
      b'.RuleURL = b.RuleURL ∧
      b'.ReferenceURL = b.ReferenceURL ∧
      b'.RuleAuthor = b.RuleAuthor ∧
      b'.RuleAuthorURL = b.RuleAuthorURL ∧
      b'.RuleLicense = b.RuleLicense ∧
      b'.RuleLicenseURL = b.RuleLicenseURL ∧
      b'.DiffAdded = b.DiffAdded ∧
      b'.DiffRemoved = b.DiffRemoved ∧
      b'.ID = b.ID ∧
      b'.RuleName = b.RuleName ∧
      b'.Override = b.Override ∧
      b'.StartingLine = 0 ∧
      b'.EndingLine = 0 ∧
      b'.StartingOffset = 0 ∧
      b'.EndingOffset = 0 := by
  intro b' hb'
  have hnot : ¬ b.LineNumbers.length ≤ 1 := by omega
  simp only [splitBehavior, if_neg hnot, List.mem_map] at hb'
  obtain ⟨p, _, hp⟩ := hb'
  subst hp
  exact ⟨rfl, rfl, rfl, rfl, rfl, rfl, rfl, rfl, rfl, rfl, rfl, rfl, rfl, rfl,
    rfl, rfl, rfl, rfl, rfl⟩

/-- C6 witness: the amended theorem applied to the concrete multi-line
behavior `bMulti` and its first emitted record. -/
theorem C6_split_field_preservation_witness :
    ((splitBehavior bMulti).getD 0 default).RiskScore = bMulti.RiskScore ∧
    ((splitBehavior bMulti).getD 0 default).StartingLine = 0 :=
  ⟨(C6_split_field_preservation bMulti (by decide)
      ((splitBehavior bMulti).getD 0 default) (by decide)).2.2.1,
    (C6_split_field_preservation bMulti (by decide)
      ((splitBehavior bMulti).getD 0 default) (by decide)).2.2.2.2.2.2.2.2.2.2.2.2.2.2.2.1⟩

/-- C7 counterexample: `splitBehaviorsByLineNumbers` copies `ArchiveRoot`
and `FullPath` verbatim — it does not clear them — so on a report with
non-empty internal fields the returned copy still carries them. -/
theorem C7_counterexample :
    (splitBehaviorsByLineNumbers frArchive).ArchiveRoot = "/tmp/extract" ∧
    (splitBehaviorsByLineNumbers frArchive).FullPath = "/tmp/extract/test.sh" ∧
    ("/tmp/extract" : String) ≠ "" := by
  exact ⟨rfl, rfl, by decide⟩

/-- C7 (amended): the `Split` transform itself preserves `ArchiveRoot` and
`FullPath` verbatim; it is `JSON.Full` that clears the two fields (in place,
on the stored report) before invoking `Split`, so every `FileReport` filed
into the serialized output has both fields empty. -/
theorem C7_internal_fields (fr : FileReport) (li : Bool)
    (files : List (String × FileReport)) :
    (splitBehaviorsByLineNumbers fr).ArchiveRoot = fr.ArchiveRoot ∧
    (splitBehaviorsByLineNumbers fr).FullPath = fr.FullPath ∧
    ∀ e ∈ (JSONFull li files).output, e.2.ArchiveRoot = "" ∧ e.2.FullPath = "" := by
  refine ⟨rfl, rfl, ?_⟩
  intro e he
  rw [JSONFull_output, List.mem_filterMap] at he
  obtain ⟨pr, _, hpr⟩ := he
  by_cases h : pr.2.Skipped = ""
  · rw [if_pos h] at hpr
    cases hpr
    cases li
    · exact ⟨rfl, rfl⟩
    · exact ⟨rfl, rfl⟩
  · rw [if_neg h] at hpr
    cases hpr

/-- C7 witness: the amended theorem at a concrete store holding a report
with non-empty internal fields. -/
theorem C7_internal_fields_witness :
    ("test.sh", fullTransform true frArchive).2.ArchiveRoot = "" ∧
    ("test.sh", fullTransform true frArchive).2.FullPath = "" :=
  (C7_internal_fields frArchive true [("test.sh", frArchive)]).2.2
    ("test.sh", fullTransform true frArchive) (by decide)

end Malcontent

namespace Malcontent

/-- Clearing the internal-only fields twice equals clearing them once. -/
theorem clearDiffFields_idem (r : FileReport) :
    clearDiffFields (clearDiffFields r) = clearDiffFields r := rfl

/-- Clearing the internal-only fields does not change `Skipped`. -/
theorem clearDiffFields_skipped (r : FileReport) :
    (clearDiffFields r).Skipped = r.Skipped := rfl

/-- The output transform of `JSON.Full` is insensitive to a prior clear. -/
theorem fullTransform_clearDiffFields (li : Bool) (r : FileReport) :
    fullTransform li (clearDiffFields r) = fullTransform li r := by
  cases li <;> simp [fullTransform, clearDiffFields_idem]

/-- C2 counterexample: `JSON.Full` writes `r.ArchiveRoot = ""` and
`r.FullPath = ""` through the stored pointer, so a store holding a report
with non-empty internal fields is mutated by rendering. -/
theorem C2_counterexample :
    (JSONFull false [("test.sh", frArchive)]).store ≠ [("test.sh", frArchive)] := by
  decide

/-- C2 (amended): rendering mutates each stored non-skipped `FileReport`
only by clearing `ArchiveRoot` and `FullPath` in place (all other fields,
and skipped reports, are untouched), and the mutation is idempotent:
rendering the post-render store again yields the identical output and
leaves the store fixed, so repeated renders over the same report produce
identical results. -/
theorem C2_render_store_effect (li : Bool) (files : List (String × FileReport)) :
    ((JSONFull li files).store = files.map (fun pr =>
        (pr.1, if pr.2.Skipped = "" then clearDiffFields pr.2 else pr.2))) ∧
    (JSONFull li (JSONFull li files).store).output = (JSONFull li files).output ∧
    (JSONFull li (JSONFull li files).store).store = (JSONFull li files).store := by
  refine ⟨JSONFull_store li files, ?_, ?_⟩
  · rw [JSONFull_output, JSONFull_output, JSONFull_store, List.filterMap_map]
    apply List.filterMap_congr
    intro pr _
    by_cases h : pr.2.Skipped = ""
    · simp [Function.comp_def, h, clearDiffFields_skipped, fullTransform_clearDiffFields]
    · simp [Function.comp_def, h]
  · rw [JSONFull_store, JSONFull_store, List.map_map]
    apply List.map_congr_left
    intro pr _
    by_cases h : pr.2.Skipped = ""
    · simp [Function.comp_def, h, clearDiffFields_skipped, clearDiffFields_idem]
    · simp [Function.comp_def, h]

/-- C9: a stored `FileReport` whose `Skipped` string is non-empty never
contributes an entry to the serialized `files` map, and every entry of the
output comes from a stored report with empty `Skipped`. -/
theorem C9_skipped_excluded (li : Bool) (files : List (String × FileReport))
    (huniq : (files.map Prod.fst).Nodup) (p : String) (fr : FileReport)
    (hmem : (p, fr) ∈ files) (hskip : fr.Skipped ≠ "") :
    (∀ e ∈ (JSONFull li files).output, e.1 ≠ p) ∧
    ∀ e ∈ (JSONFull li files).output,
      ∃ pr ∈ files, pr.2.Skipped = "" ∧ e.1 = pr.1 := by
  have hout : ∀ e ∈ (JSONFull li files).output,
      ∃ pr ∈ files, pr.2.Skipped = "" ∧ e.1 = pr.1 := by
    intro e he
    rw [JSONFull_output, List.mem_filterMap] at he
    obtain ⟨pr, hprmem, hpr⟩ := he
    by_cases h : pr.2.Skipped = ""
    · rw [if_pos h] at hpr
      cases hpr
      exact ⟨pr, hprmem, h, rfl⟩
    · rw [if_neg h] at hpr
      cases hpr
  refine ⟨?_, hout⟩
  intro e he heq
  obtain ⟨pr, hprmem, hprskip, hfst⟩ := hout e he
  have hpmem : (p, pr.2) ∈ files := by
    have : pr = (p, pr.2) := by
      rw [← heq, hfst]
    exact this ▸ hprmem
  have : pr.2 = fr := eq_of_mem_of_nodup_keys huniq hpmem hmem
  exact hskip (this ▸ hprskip)

/-- C9 witness: in a two-entry store with one skipped report, the sole
output entry does not carry the skipped path. -/
theorem C9_skipped_excluded_witness :
    ("test.sh", fullTransform true frArchive).1 ≠ "skip.sh" :=
  (C9_skipped_excluded true [("test.sh", frArchive), ("skip.sh", frSkipped)]
    (by decide) "skip.sh" frSkipped (by decide) (by decide)).1
    ("test.sh", fullTransform true frArchive) (by decide)

end Malcontent

namespace Malcontent

/-- Every offset recorded by the newline scan starting at index `i` is
strictly greater than `i`. -/
theorem computeLineOffsetsAux_gt :
    ∀ (fc : List Nat) (i : Nat), ∀ x ∈ computeLineOffsetsAux fc i, i < x := by
  intro fc
  induction fc with
  | nil =>
      intro i x hx
      cases hx
  | cons b rest ih =>
      intro i x hx
      unfold computeLineOffsetsAux at hx
      by_cases hb : b = 10
      · rw [if_pos hb] at hx
        rcases List.mem_cons.mp hx with h | h
        · omega
        · have := ih (i + 1) x h
          omega
      · rw [if_neg hb] at hx
        have := ih (i + 1) x hx
        omega

/-- C4: `getLineInfo` returns line 1, column 0 for every negative offset and
for every offset at or beyond the content length, and `Lookup(0)` is `(1, 0)`
for every content — a defined fallback, not an error. -/
theorem C4_lookup_fallback (fc : List Nat) (pos : Int) :
    ((pos < 0 ∨ (fc.length : Int) ≤ pos) → getLineInfo fc pos = (1, 0)) ∧
    getLineInfo fc 0 = (1, 0) := by
  constructor
  · intro h
    rw [getLineInfo, if_pos h]
  · by_cases h0 : (fc.length : Int) ≤ 0
    · rw [getLineInfo, if_pos (Or.inr h0)]
    · have hcount : (computeLineOffsets fc).countP
          (fun o => decide (o ≤ (0 : Int).toNat)) = 1 := by
        rw [computeLineOffsets, List.countP_cons]
        have hz : (computeLineOffsetsAux fc 0).countP
            (fun o => decide (o ≤ (0 : Int).toNat)) = 0 := by
          rw [List.countP_eq_zero]
          intro x hx
          have := computeLineOffsetsAux_gt fc 0 x hx
          simp only [Int.toNat_zero, decide_eq_true_eq]
          omega
        rw [hz]
        simp
      simp only [getLineInfo, if_neg (by omega : ¬ ((0 : Int) < 0 ∨ (fc.length : Int) ≤ 0))]
      rw [hcount]
      simp [computeLineOffsets]

/-- C4 witness: the fallback at an out-of-range offset of the two-byte file
"hi", and `Lookup(0)` of the same file. -/
theorem C4_lookup_fallback_witness :
    getLineInfo [104, 105] 5 = (1, 0) ∧ getLineInfo [104, 105] 0 = (1, 0) :=
  ⟨(C4_lookup_fallback [104, 105] 5).1 (by decide),
    (C4_lookup_fallback [104, 105] 0).2⟩

end Malcontent

namespace Malcontent

/-- `slices.Compact` returns an order-preserving sublist of its input. -/
theorem compactAdjacent_sublist : ∀ l : List String, (compactAdjacent l).Sublist l
  | [] => by simp [compactAdjacent]
  | [x] => by simp [compactAdjacent]
  | x :: y :: rest => by
      by_cases h : x = y
      · rw [compactAdjacent, if_pos h]
        exact List.Sublist.cons x (compactAdjacent_sublist (y :: rest))
      · rw [compactAdjacent, if_neg h]
        exact List.Sublist.cons₂ x (compactAdjacent_sublist (y :: rest))

/-- `slices.Compact` keeps the head value of a non-empty list. -/
theorem compactAdjacent_head (y : String) :
    ∀ t : List String, ∃ t', compactAdjacent (y :: t) = y :: t' := by
  intro t
  induction t generalizing y with
  | nil => exact ⟨[], rfl⟩
  | cons z rest ih =>
      by_cases h : y = z
      · obtain ⟨t', ht'⟩ := ih z
        exact ⟨t', by rw [compactAdjacent, if_pos h, ht', h]⟩
      · exact ⟨compactAdjacent (z :: rest), by rw [compactAdjacent, if_neg h]⟩

/-- No two adjacent entries of a `slices.Compact` result are equal. -/
theorem compactAdjacent_chain' : ∀ l : List String, (compactAdjacent l).Chain' (· ≠ ·)
  | [] => by simp [compactAdjacent]
  | [x] => by simp [compactAdjacent]
  | x :: y :: rest => by
      by_cases h : x = y
      · rw [compactAdjacent, if_pos h]
        exact compactAdjacent_chain' (y :: rest)
      · rw [compactAdjacent, if_neg h]
        obtain ⟨t', ht'⟩ := compactAdjacent_head y rest
        rw [ht', List.chain'_cons]
        exact ⟨h, ht' ▸ compactAdjacent_chain' (y :: rest)⟩

/-- C5 counterexample: `slices.Compact` removes only adjacent duplicates,
so for the identifier list `["a", "b", "a"]` the identifier `"a"` — which
recurs at non-adjacent positions — appears twice in the strings appended
for an unprintable match, violating the claimed at-most-once property. -/
theorem C5_counterexample :
    (process [0] [⟨0, 1⟩] ["a", "b", "a"]).Strings = ["a", "b", "a"] ∧
    2 ≤ (process [0] [⟨0, 1⟩] ["a", "b", "a"]).Strings.count "a" := by
  decide

/-- C5 (amended): for an unprintable accepted span, `process` appends the
pattern identifier list with consecutive runs of equal identifiers collapsed
to one (`slices.Compact`): the appended list is an order-preserving sublist
of the identifier list in which no two adjacent entries are equal; an
identifier recurring at non-adjacent positions may still appear more than
once. -/
theorem C5_unprintable_dedup (fc : List Nat) (patternIds : List String)
    (st : ProcState) (m : Match)
    (hacc : ¬ (m.offset < 0 ∨ (fc.length : Int) < m.offset + m.length))
    (hunpr : containsUnprintable ((fc.drop m.offset.toNat).take m.length) = true) :
    (processStep fc patternIds st m).result =
      st.result ++ compactAdjacent patternIds ∧
    (compactAdjacent patternIds).Sublist patternIds ∧
    (compactAdjacent patternIds).Chain' (· ≠ ·) := by
  refine ⟨?_, compactAdjacent_sublist patternIds, compactAdjacent_chain' patternIds⟩
  simp only [processStep, if_neg hacc, hunpr, if_pos]

/-- C5 witness: the amended theorem at the one-byte unprintable file `[0]`
with identifier list `["a", "b", "a"]`. -/
theorem C5_unprintable_dedup_witness :
    (processStep [0] ["a", "b", "a"] ⟨[], none⟩ ⟨0, 1⟩).result =
      [] ++ compactAdjacent ["a", "b", "a"] :=
  (C5_unprintable_dedup [0] ["a", "b", "a"] ⟨[], none⟩ ⟨0, 1⟩
    (by decide) (by decide)).1

end Malcontent

namespace Malcontent

/-- C10 counterexample: for content `"a\nb"` and a zero-length match at
offset 3 (= the content length), the match is accepted and appends the
interned empty string, and the start candidate is the `(1, 0)` fallback —
but the end position is computed at `offset + length - 1 = 2`, which is in
range and resolves to the last byte's actual position `(2, 0)`, not through
the out-of-range fallback as the claim asserts for both positions. -/
theorem C10_counterexample :
    (process [97, 10, 98] [⟨3, 0⟩] []).Strings = [""] ∧
    (process [97, 10, 98] [⟨3, 0⟩] []).StartingLine = 1 ∧
    (process [97, 10, 98] [⟨3, 0⟩] []).StartingOffset = 0 ∧
    (process [97, 10, 98] [⟨3, 0⟩] []).EndingLine = 2 ∧
    (process [97, 10, 98] [⟨3, 0⟩] []).EndingLine ≠ 1 := by
  decide

/-- C10 (amended): the loop skips a match exactly when `offset < 0` or
`offset + length > len(fc)`; an accepted match appends either the printable
string or the compacted identifiers and widens the span with its two
candidates; a zero-length match at `offset = len(fc)` is accepted, appends
the interned empty string, and its start candidate goes through the
out-of-range fallback, contributing `(1, 0)` as candidate start — while its
end candidate is computed at `len(fc) - 1`, the last byte's in-range
position for non-empty content. -/
theorem C10_zero_length_at_end (fc : List Nat) (patternIds : List String)
    (st : ProcState) (m : Match) :
    ((m.offset < 0 ∨ (fc.length : Int) < m.offset + m.length) →
      processStep fc patternIds st m = st) ∧
    (¬ (m.offset < 0 ∨ (fc.length : Int) < m.offset + m.length) →
      (processStep fc patternIds st m).result = st.result ++
        (if containsUnprintable ((fc.drop m.offset.toNat).take m.length)
          then compactAdjacent patternIds
          else [bytesToString ((fc.drop m.offset.toNat).take m.length)]) ∧
      (processStep fc patternIds st m).pos =
        mergeCand st.pos (startCand fc m, endCand fc m)) ∧
    (m.length = 0 → m.offset = (fc.length : Int) →
      ¬ (m.offset < 0 ∨ (fc.length : Int) < m.offset + m.length) ∧
      (processStep fc patternIds st m).result = st.result ++ [""] ∧
      (processStep fc patternIds st m).pos =
        mergeCand st.pos ((1, 0), getLineInfo fc ((fc.length : Int) - 1))) := by
  refine ⟨fun h => by rw [processStep, if_pos h], fun h => ?_, fun hl ho => ?_⟩
  · constructor
    · by_cases hu : containsUnprintable ((fc.drop m.offset.toNat).take m.length) = true
      · simp only [processStep, if_neg h, hu, if_pos]
      · rw [Bool.not_eq_true] at hu
        simp only [processStep, if_neg h, hu, Bool.false_eq_true, if_false]
    · by_cases hu : containsUnprintable ((fc.drop m.offset.toNat).take m.length) = true
      · simp only [processStep, if_neg h, hu, if_pos]
        rfl
      · rw [Bool.not_eq_true] at hu
        simp only [processStep, if_neg h, hu, Bool.false_eq_true, if_false]
        rfl
  · obtain ⟨o, l⟩ := m
    simp only at hl ho
    subst hl
    subst ho
    have hacc : ¬ ((fc.length : Int) < 0 ∨ (fc.length : Int) < (fc.length : Int) + (0 : Nat)) := by
      omega
    refine ⟨hacc, ?_, ?_⟩
    · simp only [processStep, if_neg hacc, List.take_zero]
      have : containsUnprintable [] = false := rfl
      rw [this]
      simp only [Bool.false_eq_true, if_false]
      rfl
    · simp only [processStep, if_neg hacc, List.take_zero]
      have : containsUnprintable [] = false := rfl
      rw [this]
      simp only [Bool.false_eq_true, if_false]
      show updateLineInfo fc (fc.length : Int) 0 st.pos = _
      rw [updateLineInfo]
      have hstart : getLineInfo fc (fc.length : Int) = (1, 0) := by
        rw [getLineInfo, if_pos (Or.inr le_rfl)]
      rw [show ((fc.length : Int) + (0 : Nat) - 1) = (fc.length : Int) - 1 by omega, hstart]

/-- C10 witness: the amended theorem at the content `"a\nb"`, a skipped
match, and the zero-length match at offset 3. -/
theorem C10_zero_length_at_end_witness :
    processStep [97, 10, 98] [] ⟨[], none⟩ ⟨(-1), 1⟩ = ⟨[], none⟩ ∧
    (processStep [97, 10, 98] [] ⟨[], none⟩ ⟨3, 0⟩).result = [] ++ [""] ∧
    (processStep [97, 10, 98] [] ⟨[], none⟩ ⟨3, 0⟩).pos =
      mergeCand none ((1, 0), getLineInfo [97, 10, 98] (((3 : Nat) : Int) - 1)) := by
  refine ⟨(C10_zero_length_at_end [97, 10, 98] [] ⟨[], none⟩ ⟨(-1), 1⟩).1 (by decide),
    ?_, ?_⟩
  · exact ((C10_zero_length_at_end [97, 10, 98] [] ⟨[], none⟩ ⟨3, 0⟩).2.2
      (by decide) (by decide)).2.1
  · exact ((C10_zero_length_at_end [97, 10, 98] [] ⟨[], none⟩ ⟨3, 0⟩).2.2
      (by decide) (by decide)).2.2

end Malcontent

namespace Malcontent

/-! ## Order kit for the aggregated-span bounds (claim C3) -/

theorem lexLt_irrefl (a : Nat × Nat) : lexLt a a = false := by
  simp [lexLt]

/-- `le a b` in the lexicographic order, phrased as `lexLt b a = false`:
transitivity. -/
theorem lexLt_false_trans {a b c : Nat × Nat}
    (h1 : lexLt b a = false) (h2 : lexLt c b = false) : lexLt c a = false := by
  obtain ⟨a1, a2⟩ := a
  obtain ⟨b1, b2⟩ := b
  obtain ⟨c1, c2⟩ := c
  simp_all only [lexLt, Bool.or_eq_false_iff, Bool.and_eq_false_iff,
    decide_eq_false_iff_not, Bool.or_eq_true, Bool.and_eq_true, decide_eq_true_eq]
  omega

theorem minLex_comm (a b : Nat × Nat) : minLex a b = minLex b a := by
  obtain ⟨a1, a2⟩ := a
  obtain ⟨b1, b2⟩ := b
  simp only [minLex, lexLt]
  split_ifs <;>
    simp_all only [Bool.or_eq_true, Bool.and_eq_true, decide_eq_true_eq,
      not_or, not_and, Prod.mk.injEq] <;> omega

theorem maxLex_comm (a b : Nat × Nat) : maxLex a b = maxLex b a := by
  obtain ⟨a1, a2⟩ := a
  obtain ⟨b1, b2⟩ := b
  simp only [maxLex, lexLt]
  split_ifs <;>
    simp_all only [Bool.or_eq_true, Bool.and_eq_true, decide_eq_true_eq,
      not_or, not_and, Prod.mk.injEq] <;> omega

theorem minLex_right_comm (a b c : Nat × Nat) :
    minLex (minLex a b) c = minLex (minLex a c) b := by
  obtain ⟨a1, a2⟩ := a
  obtain ⟨b1, b2⟩ := b
  obtain ⟨c1, c2⟩ := c
  simp only [minLex, lexLt]
  split_ifs <;>
    simp_all only [Bool.or_eq_true, Bool.and_eq_true, decide_eq_true_eq,
      not_or, not_and, Prod.mk.injEq] <;> omega

theorem maxLex_right_comm (a b c : Nat × Nat) :
    maxLex (maxLex a b) c = maxLex (maxLex a c) b := by
  obtain ⟨a1, a2⟩ := a
  obtain ⟨b1, b2⟩ := b
  obtain ⟨c1, c2⟩ := c
  simp only [maxLex, lexLt]
  split_ifs <;>
    simp_all only [Bool.or_eq_true, Bool.and_eq_true, decide_eq_true_eq,
      not_or, not_and, Prod.mk.injEq] <;> omega

theorem minLex_eq_or (a b : Nat × Nat) : minLex a b = a ∨ minLex a b = b := by
  unfold minLex
  split_ifs <;> simp

theorem maxLex_eq_or (a b : Nat × Nat) : maxLex a b = a ∨ maxLex a b = b := by
  unfold maxLex
  split_ifs <;> simp

/-- The strict lexicographic order is asymmetric. -/
theorem lexLt_asymm {a b : Nat × Nat} (h : lexLt a b = true) : lexLt b a = false := by
  obtain ⟨a1, a2⟩ := a
  obtain ⟨b1, b2⟩ := b
  simp only [lexLt, Bool.or_eq_true, Bool.and_eq_true, decide_eq_true_eq] at h
  rw [← Bool.not_eq_true]
  simp only [lexLt, Bool.or_eq_true, Bool.and_eq_true, decide_eq_true_eq]
  omega

/-- The lexicographic minimum is at most its left argument. -/
theorem lexLt_minLex_left (a b : Nat × Nat) : lexLt a (minLex a b) = false := by
  unfold minLex
  split_ifs with h
  · exact lexLt_asymm h
  · exact lexLt_irrefl a

/-- The lexicographic minimum is at most its right argument. -/
theorem lexLt_minLex_right (a b : Nat × Nat) : lexLt b (minLex a b) = false := by
  unfold minLex
  split_ifs with h
  · exact lexLt_irrefl b
  · rw [Bool.not_eq_true] at h
    exact h

/-- The lexicographic maximum is at least its left argument. -/
theorem lexLt_maxLex_left (a b : Nat × Nat) : lexLt (maxLex a b) a = false := by
  unfold maxLex
  split_ifs with h
  · exact lexLt_asymm h
  · exact lexLt_irrefl a

/-- The lexicographic maximum is at least its right argument. -/
theorem lexLt_maxLex_right (a b : Nat × Nat) : lexLt (maxLex a b) b = false := by
  unfold maxLex
  split_ifs with h
  · exact lexLt_irrefl b
  · rw [Bool.not_eq_true] at h
    exact h

end Malcontent

namespace Malcontent

/-- A left fold of `minLex` lands on its seed or on a list element. -/
theorem foldl_minLex_mem : ∀ (l : List (Nat × Nat)) (s : Nat × Nat),
    l.foldl minLex s = s ∨ l.foldl minLex s ∈ l
  | [], _ => Or.inl rfl
  | c :: l, s => by
      rw [List.foldl_cons]
      rcases foldl_minLex_mem l (minLex s c) with h | h
      · rw [h]
        rcases minLex_eq_or s c with h2 | h2
        · exact Or.inl h2
        · exact Or.inr (by rw [h2]; exact List.mem_cons_self c l)
      · exact Or.inr (List.mem_cons_of_mem c h)

/-- A left fold of `minLex` is a lexicographic lower bound of its seed and
every list element. -/
theorem foldl_minLex_lb : ∀ (l : List (Nat × Nat)) (s : Nat × Nat),
    lexLt s (l.foldl minLex s) = false ∧
      ∀ x ∈ l, lexLt x (l.foldl minLex s) = false
  | [], s => ⟨lexLt_irrefl s, fun x hx => absurd hx (List.not_mem_nil x)⟩
  | c :: l, s => by
      rw [List.foldl_cons]
      obtain ⟨h1, h2⟩ := foldl_minLex_lb l (minLex s c)
      refine ⟨lexLt_false_trans h1 (lexLt_minLex_left s c), ?_⟩
      intro x hx
      rcases List.mem_cons.mp hx with h | h
      · subst h
        exact lexLt_false_trans h1 (lexLt_minLex_right s x)
      · exact h2 x h

/-- A left fold of `maxLex` lands on its seed or on a list element. -/
theorem foldl_maxLex_mem : ∀ (l : List (Nat × Nat)) (s : Nat × Nat),
    l.foldl maxLex s = s ∨ l.foldl maxLex s ∈ l
  | [], _ => Or.inl rfl
  | c :: l, s => by
      rw [List.foldl_cons]
      rcases foldl_maxLex_mem l (maxLex s c) with h | h
      · rw [h]
        rcases maxLex_eq_or s c with h2 | h2
        · exact Or.inl h2
        · exact Or.inr (by rw [h2]; exact List.mem_cons_self c l)
      · exact Or.inr (List.mem_cons_of_mem c h)

/-- A left fold of `maxLex` is a lexicographic upper bound of its seed and
every list element. -/
theorem foldl_maxLex_ub : ∀ (l : List (Nat × Nat)) (s : Nat × Nat),
    lexLt (l.foldl maxLex s) s = false ∧
      ∀ x ∈ l, lexLt (l.foldl maxLex s) x = false
  | [], s => ⟨lexLt_irrefl s, fun x hx => absurd hx (List.not_mem_nil x)⟩
  | c :: l, s => by
      rw [List.foldl_cons]
      obtain ⟨h1, h2⟩ := foldl_maxLex_ub l (maxLex s c)
      refine ⟨lexLt_false_trans (lexLt_maxLex_left s c) h1, ?_⟩
      intro x hx
      rcases List.mem_cons.mp hx with h | h
      · subst h
        exact lexLt_false_trans (lexLt_maxLex_right s x) h1
      · exact h2 x h

/-- The span component of one `process` iteration is `posStep`. -/
theorem processStep_pos (fc : List Nat) (patternIds : List String)
    (st : ProcState) (m : Match) :
    (processStep fc patternIds st m).pos = posStep fc st.pos m := by
  by_cases h : m.offset < 0 ∨ (fc.length : Int) < m.offset + m.length
  · rw [processStep, if_pos h, posStep, if_pos h]
  · by_cases hu : containsUnprintable ((fc.drop m.offset.toNat).take m.length) = true
    · simp only [processStep, if_neg h, hu, if_pos, posStep, if_neg h]
      rfl
    · rw [Bool.not_eq_true] at hu
      simp only [processStep, if_neg h, hu, Bool.false_eq_true, if_false, posStep,
        if_neg h]
      rfl

/-- The span component of the whole `process` loop is the `posStep` fold. -/
theorem foldl_processStep_pos (fc : List Nat) (patternIds : List String) :
    ∀ (ms : List Match) (st : ProcState),
      (ms.foldl (processStep fc patternIds) st).pos = ms.foldl (posStep fc) st.pos
  | [], _ => rfl
  | m :: ms, st => by
      rw [List.foldl_cons, List.foldl_cons, foldl_processStep_pos fc patternIds ms,
        processStep_pos]

/-- Widening the span by two candidates commutes. -/
theorem mergeCand_right_comm (st : Option ((Nat × Nat) × (Nat × Nat)))
    (c1 c2 : (Nat × Nat) × (Nat × Nat)) :
    mergeCand (mergeCand st c1) c2 = mergeCand (mergeCand st c2) c1 := by
  cases st with
  | none =>
      obtain ⟨s1, e1⟩ := c1
      obtain ⟨s2, e2⟩ := c2
      simp only [mergeCand]
      rw [minLex_comm, maxLex_comm]
  | some p =>
      obtain ⟨cs, ce⟩ := p
      obtain ⟨s1, e1⟩ := c1
      obtain ⟨s2, e2⟩ := c2
      simp only [mergeCand]
      rw [minLex_right_comm, maxLex_right_comm]

/-- One `posStep` iteration is right-commutative. -/
theorem posStep_right_comm (fc : List Nat)
    (st : Option ((Nat × Nat) × (Nat × Nat))) (m1 m2 : Match) :
    posStep fc (posStep fc st m1) m2 = posStep fc (posStep fc st m2) m1 := by
  unfold posStep
  split_ifs <;> first | rfl | exact mergeCand_right_comm st _ _

/-- The span fold is invariant under permutation of the match list. -/
theorem foldl_posStep_perm (fc : List Nat) {ms1 ms2 : List Match}
    (h : List.Perm ms1 ms2) (st : Option ((Nat × Nat) × (Nat × Nat))) :
    ms1.foldl (posStep fc) st = ms2.foldl (posStep fc) st :=
  h.foldl_eq' (fun x _ y _ z => posStep_right_comm fc z x y) st

/-- The span fold only sees the accepted matches. -/
theorem foldl_posStep_filter (fc : List Nat) :
    ∀ (ms : List Match) (st : Option ((Nat × Nat) × (Nat × Nat))),
      ms.foldl (posStep fc) st =
        (ms.filter (fun m => decide (acceptMatch fc m))).foldl
          (fun st m => mergeCand st (startCand fc m, endCand fc m)) st
  | [], _ => rfl
  | m :: ms, st => by
      by_cases h : acceptMatch fc m
      · rw [List.foldl_cons, List.filter_cons_of_pos (by simpa using h),
          List.foldl_cons, foldl_posStep_filter fc ms, posStep, if_neg h]
      · have hcond : m.offset < 0 ∨ (fc.length : Int) < m.offset + m.length :=
          not_not.mp h
        rw [List.foldl_cons, List.filter_cons_of_neg (by simpa using h),
          foldl_posStep_filter fc ms, posStep, if_pos hcond]

/-- Folding span candidates from a seeded state computes the `minLex` fold
of the start candidates and the `maxLex` fold of the end candidates. -/
theorem foldl_mergeCand_some (fc : List Nat) :
    ∀ (l : List Match) (s e : Nat × Nat),
      l.foldl (fun st m => mergeCand st (startCand fc m, endCand fc m))
          (some (s, e)) =
        some (l.foldl (fun acc m => minLex acc (startCand fc m)) s,
          l.foldl (fun acc m => maxLex acc (endCand fc m)) e)
  | [], _, _ => rfl
  | m :: l, s, e => by
      rw [List.foldl_cons, List.foldl_cons, List.foldl_cons]
      exact foldl_mergeCand_some fc l (minLex s (startCand fc m))
        (maxLex e (endCand fc m))

end Malcontent

namespace Malcontent

/-- When the span fold produced a widened box, `process` reports exactly its
start and end pairs. -/
theorem process_span_some (fc : List Nat) (patternIds : List String)
    (ms : List Match) (hne : ms ≠ []) {ps pe : Nat × Nat}
    (h : ms.foldl (posStep fc) none = some (ps, pe)) :
    ((process fc ms patternIds).StartingLine,
      (process fc ms patternIds).StartingOffset) = ps ∧
    ((process fc ms patternIds).EndingLine,
      (process fc ms patternIds).EndingOffset) = pe := by
  obtain ⟨sl, so⟩ := ps
  obtain ⟨el, eo⟩ := pe
  have hempty : ms.isEmpty = false := by
    cases ms
    · exact absurd rfl hne
    · rfl
  have h2 : (ms.foldl (processStep fc patternIds) ⟨[], none⟩).pos =
      some ((sl, so), (el, eo)) := by
    rw [foldl_processStep_pos]
    exact h
  simp only [process, hempty, Bool.false_eq_true, if_false, h2]
  exact ⟨trivial, trivial⟩

/-- When every match was skipped, `process` reports the zero span. -/
theorem process_span_none (fc : List Nat) (patternIds : List String)
    (ms : List Match) (hne : ms ≠ [])
    (h : ms.foldl (posStep fc) none = none) :
    (process fc ms patternIds).StartingLine = 0 ∧
    (process fc ms patternIds).StartingOffset = 0 ∧
    (process fc ms patternIds).EndingLine = 0 ∧
    (process fc ms patternIds).EndingOffset = 0 := by
  have hempty : ms.isEmpty = false := by
    cases ms
    · exact absurd rfl hne
    · rfl
  have h2 : (ms.foldl (processStep fc patternIds) ⟨[], none⟩).pos = none := by
    rw [foldl_processStep_pos]
    exact h
  simp only [process, hempty, Bool.false_eq_true, if_false, h2]
  exact ⟨trivial, trivial, trivial, trivial⟩

end Malcontent

namespace Malcontent

/-- C3: the aggregated span of `process` is order-independent — any
permutation of the raw match sequence yields identical `StartingLine`,
`EndingLine`, `StartingOffset` and `EndingOffset` — and when at least one
match is accepted, the final (start line, start column) pair is the
lexicographic minimum of the accepted matches' start positions and the
final (end line, end column) pair is the lexicographic maximum of their end
positions. -/
theorem C3_aggregate_order_independent (fc : List Nat) (patternIds : List String)
    (ms1 ms2 : List Match) (hperm : List.Perm ms1 ms2) :
    ((process fc ms1 patternIds).StartingLine
        = (process fc ms2 patternIds).StartingLine ∧
      (process fc ms1 patternIds).EndingLine
        = (process fc ms2 patternIds).EndingLine ∧
      (process fc ms1 patternIds).StartingOffset
        = (process fc ms2 patternIds).StartingOffset ∧
      (process fc ms1 patternIds).EndingOffset
        = (process fc ms2 patternIds).EndingOffset) ∧
    ((∃ m ∈ ms1, acceptMatch fc m) →
      (((process fc ms1 patternIds).StartingLine,
          (process fc ms1 patternIds).StartingOffset) ∈
            (ms1.filter (fun m => decide (acceptMatch fc m))).map (startCand fc) ∧
        ∀ s ∈ (ms1.filter (fun m => decide (acceptMatch fc m))).map (startCand fc),
          lexLt s ((process fc ms1 patternIds).StartingLine,
            (process fc ms1 patternIds).StartingOffset) = false) ∧
      (((process fc ms1 patternIds).EndingLine,
          (process fc ms1 patternIds).EndingOffset) ∈
            (ms1.filter (fun m => decide (acceptMatch fc m))).map (endCand fc) ∧
        ∀ e ∈ (ms1.filter (fun m => decide (acceptMatch fc m))).map (endCand fc),
          lexLt ((process fc ms1 patternIds).EndingLine,
            (process fc ms1 patternIds).EndingOffset) e = false)) := by
  constructor
  · by_cases hnil : ms1 = []
    · subst hnil
      have h2 : ms2 = [] := hperm.symm.eq_nil
      subst h2
      exact ⟨rfl, rfl, rfl, rfl⟩
    · have hnil2 : ms2 ≠ [] := by
        intro h
        subst h
        exact hnil hperm.eq_nil
      have hfold : ms1.foldl (posStep fc) none = ms2.foldl (posStep fc) none :=
        foldl_posStep_perm fc hperm none
      rcases hv : ms2.foldl (posStep fc) none with _ | ⟨ps, pe⟩
      · obtain ⟨a1, a2, a3, a4⟩ :=
          process_span_none fc patternIds ms1 hnil (hfold.trans hv)
        obtain ⟨b1, b2, b3, b4⟩ :=
          process_span_none fc patternIds ms2 hnil2 hv
        rw [a1, a2, a3, a4, b1, b2, b3, b4]
        exact ⟨rfl, rfl, rfl, rfl⟩
      · obtain ⟨a1, a2⟩ :=
          process_span_some fc patternIds ms1 hnil (hfold.trans hv)
        obtain ⟨b1, b2⟩ :=
          process_span_some fc patternIds ms2 hnil2 hv
        rw [Prod.ext_iff] at a1 a2 b1 b2
        exact ⟨a1.1.trans b1.1.symm, a2.1.trans b2.1.symm,
          a1.2.trans b1.2.symm, a2.2.trans b2.2.symm⟩
  · rintro ⟨m, hm, hacc⟩
    have hne : ms1 ≠ [] := by
      rintro rfl
      exact List.not_mem_nil m hm
    have hmF : m ∈ ms1.filter (fun m => decide (acceptMatch fc m)) :=
      List.mem_filter.mpr ⟨hm, by simpa using hacc⟩
    rcases hFc : ms1.filter (fun m => decide (acceptMatch fc m)) with _ | ⟨m0, F'⟩
    · rw [hFc] at hmF
      cases hmF
    · have hfold : ms1.foldl (posStep fc) none =
          some (F'.foldl (fun acc m => minLex acc (startCand fc m)) (startCand fc m0),
            F'.foldl (fun acc m => maxLex acc (endCand fc m)) (endCand fc m0)) := by
        rw [foldl_posStep_filter, hFc, List.foldl_cons]
        exact foldl_mergeCand_some fc F' (startCand fc m0) (endCand fc m0)
      obtain ⟨a1, a2⟩ := process_span_some fc patternIds ms1 hne hfold
      rw [a1, a2]
      have hs : F'.foldl (fun acc m => minLex acc (startCand fc m)) (startCand fc m0)
          = (F'.map (startCand fc)).foldl minLex (startCand fc m0) := by
        rw [List.foldl_map]
      have he : F'.foldl (fun acc m => maxLex acc (endCand fc m)) (endCand fc m0)
          = (F'.map (endCand fc)).foldl maxLex (endCand fc m0) := by
        rw [List.foldl_map]
      rw [hs, he]
      refine ⟨⟨?_, ?_⟩, ?_, ?_⟩
      · rcases foldl_minLex_mem (F'.map (startCand fc)) (startCand fc m0) with h | h
        · rw [h]
          exact List.mem_cons_self _ _
        · exact List.mem_cons_of_mem _ h
      · intro s hsmem
        obtain ⟨hlb1, hlb2⟩ := foldl_minLex_lb (F'.map (startCand fc)) (startCand fc m0)
        rcases List.mem_cons.mp hsmem with h | h
        · rw [h]
          exact hlb1
        · exact hlb2 s h
      · rcases foldl_maxLex_mem (F'.map (endCand fc)) (endCand fc m0) with h | h
        · rw [h]
          exact List.mem_cons_self _ _
        · exact List.mem_cons_of_mem _ h
      · intro e hemem
        obtain ⟨hub1, hub2⟩ := foldl_maxLex_ub (F'.map (endCand fc)) (endCand fc m0)
        rcases List.mem_cons.mp hemem with h | h
        · rw [h]
          exact hub1
        · exact hub2 e h

/-- C3 witness: two permuted two-match lists over `"a\nb"` give the same
span, attained as lexicographic min/max of the accepted candidates. -/
theorem C3_aggregate_order_independent_witness :
    (process [97, 10, 98] [⟨0, 1⟩, ⟨2, 1⟩] []).StartingLine
      = (process [97, 10, 98] [⟨2, 1⟩, ⟨0, 1⟩] []).StartingLine ∧
    ((process [97, 10, 98] [⟨0, 1⟩, ⟨2, 1⟩] []).StartingLine,
      (process [97, 10, 98] [⟨0, 1⟩, ⟨2, 1⟩] []).StartingOffset) ∈
        (([⟨0, 1⟩, ⟨2, 1⟩] : List Match).filter
          (fun m => decide (acceptMatch [97, 10, 98] m))).map (startCand [97, 10, 98]) := by
  have h := C3_aggregate_order_independent [97, 10, 98] [] [⟨0, 1⟩, ⟨2, 1⟩]
    [⟨2, 1⟩, ⟨0, 1⟩] (by decide)
  exact ⟨h.1.1, (h.2 (by decide)).1.1⟩

end Malcontent
